import Mathlib

/-!
Verification development for the Markdown-to-Notion-block conversion engine
of this repository.

The development shallowly embeds:

* `Agent_Prototype/Tools/notion_markdown_utils/link_handler.py`
  (`preprocess_markdown_links`, `postprocess_notion_blocks`,
  `fix_markdown_links`);
* the built-in BeautifulSoup backend of
  `Apps/Tools/notion_markdown_utils/markdown_converter.py`
  (`process_rich_text_element` and the per-element block dispatch of
  `MarkdownConverter._convert_with_bs4`), working on a tree model of the
  parsed HTML;
* the converter façade (`MarkdownConverter.convert`,
  `clean_markdown_to_notion_blocks`, `markdown_to_notion_blocks`,
  `process_table_with_links`), with the external collaborators (the
  Node.js bridge process, the `markdown`/`bs4` libraries) abstracted as
  parameters of an environment record, and Python's dynamic input values
  abstracted as a record of the coercion interface the code probes
  (`str()`, `to_json()`, iteration, truthiness).

Python strings are modelled as `String`/`List Char`; character classes of
the regexes involved (`\s` and the literal stop characters) are modelled
over their ASCII members, which is exact for every input considered here.
-/

set_option autoImplicit false
set_option maxRecDepth 10000
set_option maxHeartbeats 1000000

namespace NotionMd

/-! ### Python string primitives -/

/-- Characters treated as whitespace both by Python's `str.strip` and by the
regex class `\s` (ASCII part). -/
def pyWs (c : Char) : Bool :=
  c = ' ' || c = '\t' || c = '\n' || c = '\r' || c = '\x0b' || c = '\x0c'

/-- Python `str.strip()` on a list of characters. -/
def pyStrip (cs : List Char) : List Char :=
  ((cs.dropWhile pyWs).reverse.dropWhile pyWs).reverse

/-- Python `str.strip()` on a `String`. -/
def pyStripStr (s : String) : String :=
  (pyStrip s.toList).asString

/-- `prefixOfL pat hay` : does `hay` start with `pat`?  (Python
`str.startswith`.) -/
def prefixOfL : List Char → List Char → Bool
  | [], _ => true
  | _ :: _, [] => false
  | p :: ps, h :: hs => p = h && prefixOfL ps hs

/-- `substrOfL pat hay` : does `pat` occur contiguously inside `hay`?
(Python's `pat in hay`; the empty pattern is contained everywhere.) -/
def substrOfL (pat : List Char) : List Char → Bool
  | [] => prefixOfL pat []
  | h :: hs => prefixOfL pat (h :: hs) || substrOfL pat hs

/-- Python's substring test `pat in s` on `String`s. -/
def strContains (s pat : String) : Bool :=
  substrOfL pat.toList s.toList

/-! ### Data model

One extracted link of `preprocess_markdown_links`
(`{"placeholder": ..., "text": ..., "url": ...}`). -/

structure ExtractedLink where
  placeholder : String
  text : String
  url : String
  deriving DecidableEq, Repr

/-- One Notion rich-text item, `{"type": "text", "text": {"content": ...,
"link"?: {"url": ...}}, "annotations"?: {...}}`.  The converter sets at most
one annotation key per run, so a single optional mark models the
`annotations` dict it produces. -/
inductive Mark where
  | bold | italic | underline | codeMark | strikethrough
  deriving DecidableEq, Repr

structure RichText where
  content : String
  link : Option String
  annots : Option Mark
  deriving DecidableEq, Repr

/-- One `{"type": "table_row", "table_row": {"cells": [...]}}` object. -/
structure TableRow where
  cells : List (List RichText)
  deriving DecidableEq, Repr

/-- The Notion block shapes emitted by `MarkdownConverter._convert_with_bs4`
(tagged by their `"type"` field). -/
inductive Block where
  | heading1 (richText : List RichText)
  | heading2 (richText : List RichText)
  | heading3 (richText : List RichText)
  | paragraph (richText : List RichText)
  | bulletedListItem (richText : List RichText)
  | numberedListItem (richText : List RichText)
  | quote (richText : List RichText)
  | code (richText : List RichText) (language : String)
  | divider
  | image (url : String)
  | table (tableWidth : Nat) (hasColumnHeader : Bool) (hasRowHeader : Bool)
      (children : List TableRow)
  deriving DecidableEq, Repr

/-! ### `preprocess_markdown_links` (link_handler.py, lines 7-75)

Step 1: `re.sub(r'\[([^\]]+)\]\(([^)]+)\)', replace_markdown_link, ...)`.
Since `[^\]]+` cannot cross a `]` and `[^)]+` cannot cross a `)`, the regex
match at a `[` is exactly: a nonempty run of non-`]` characters, `](`, a
nonempty run of non-`)` characters, `)`. -/

/-- Split a character list at the first occurrence of `c`; the separator is
dropped. -/
def breakOn (c : Char) : List Char → Option (List Char × List Char)
  | [] => none
  | x :: xs =>
    if x = c then some ([], xs)
    else (breakOn c xs).map (fun p => (x :: p.1, p.2))

/-- Attempt to match `([^\]]+)\]\(([^)]+)\)` right after an opening `[`:
returns the link text, the url, and the rest of the input. -/
def tryLink (cs : List Char) : Option (List Char × List Char × List Char) :=
  match breakOn ']' cs with
  | none => none
  | some (txt, rest2) =>
    if txt.isEmpty then none
    else
      match rest2 with
      | '(' :: rest3 =>
        match breakOn ')' rest3 with
        | none => none
        | some (url, rest4) =>
          if url.isEmpty then none else some (txt, url, rest4)
      | _ => none

/-- Left-to-right scan replacing each markdown link `[text](url)` with
`[LINKPLACEHOLDER_n]` (`n` = number of links extracted so far) and recording
`{placeholder, text, url}`, exactly as `replace_markdown_link` does.  The
fuel argument only bounds the recursion; every step consumes at least one
input character, so `fuel = length + 1` (as supplied by
`preprocessMarkdownLinks`) never runs out. -/
def scanMdLinks : Nat → List Char → List ExtractedLink →
    List Char × List ExtractedLink
  | 0, cs, acc => (cs, acc)
  | _ + 1, [], acc => ([], acc)
  | fuel + 1, c :: rest, acc =>
    if c = '[' then
      match tryLink rest with
      | some (txt, url, rest4) =>
        let ph := "LINKPLACEHOLDER_" ++ toString acc.length
        let acc' := acc ++ [⟨ph, txt.asString, url.asString⟩]
        let r := scanMdLinks fuel rest4 acc'
        ('[' :: (ph.toList ++ ']' :: r.1), r.2)
      | none =>
        let r := scanMdLinks fuel rest acc
        (c :: r.1, r.2)
    else
      let r := scanMdLinks fuel rest acc
      (c :: r.1, r.2)

/-! Step 2: per-line `re.sub(r'https?://[^\s)"\'\]\}]+', replace_bare_url, line)`
outside fenced code blocks. -/

/-- Characters admitted by the regex class `[^\s)"'\]\}]`. -/
def isBareUrlChar (c : Char) : Bool :=
  !(pyWs c || c = ')' || c = '"' || c = '\'' || c = ']' || c = '}')

/-- Attempt to match `https?://[^\s)"'\]\}]+` at the head of the input;
returns the matched characters and the rest. -/
def tryUrl : List Char → Option (List Char × List Char)
  | 'h' :: 't' :: 't' :: 'p' :: rest =>
    let (scheme, rest') :=
      match rest with
      | 's' :: r => ("https".toList, r)
      | r => ("http".toList, r)
    match rest' with
    | ':' :: '/' :: '/' :: rest2 =>
      let body := rest2.takeWhile isBareUrlChar
      if body.isEmpty then none
      else some (scheme ++ ':' :: '/' :: '/' :: body, rest2.drop body.length)
    | _ => none
  | _ => none

/-- The guard of `replace_bare_url`: Python evaluates
`markdown_content[max(0, match.start() - 2):match.start()].endswith("](")`,
where `markdown_content` is the ORIGINAL input of
`preprocess_markdown_links` while `match.start()` is an offset into the
current line of the already-substituted text. -/
def precededByLinkOpen (orig : List Char) (pos : Nat) : Bool :=
  decide (2 ≤ pos) && ((orig.drop (pos - 2)).take 2 = [']', '('])

/-- Left-to-right scan of one line replacing bare URLs by
`URLLINKPLACEHOLDER_n` unless the guard above fires, mirroring
`replace_bare_url`.  `pos` is the offset of the scan position within the
line; `orig` is the whole original input (see `precededByLinkOpen`).  Fuel
as in `scanMdLinks`. -/
def scanBareUrls (orig : List Char) : Nat → Nat → List Char →
    List ExtractedLink → List Char × List ExtractedLink
  | 0, _, cs, acc => (cs, acc)
  | _ + 1, _, [], acc => ([], acc)
  | fuel + 1, pos, c :: rest, acc =>
    match tryUrl (c :: rest) with
    | some (url, rest') =>
      if precededByLinkOpen orig pos then
        let r := scanBareUrls orig fuel (pos + url.length) rest' acc
        (url ++ r.1, r.2)
      else
        let ph := "URLLINKPLACEHOLDER_" ++ toString acc.length
        let acc' := acc ++ [⟨ph, url.asString, url.asString⟩]
        let r := scanBareUrls orig fuel (pos + url.length) rest' acc'
        (ph.toList ++ r.1, r.2)
    | none =>
      let r := scanBareUrls orig fuel (pos + 1) rest acc
      (c :: r.1, r.2)

/-- Does a line toggle the fence state?  (`line.strip().startswith("```")`.) -/
def fenceLine (line : List Char) : Bool :=
  prefixOfL "```".toList (pyStrip line)

/-- The per-line loop of `preprocess_markdown_links` (lines 61-71): fence
lines toggle `in_code_block` and are left as-is; lines inside a code block
are left as-is; all other lines get the bare-URL substitution. -/
def processLines (orig : List Char) :
    List (List Char) → Bool → List ExtractedLink →
    List (List Char) × List ExtractedLink
  | [], _, acc => ([], acc)
  | line :: rest, inCode, acc =>
    if fenceLine line then
      let r := processLines orig rest (!inCode) acc
      (line :: r.1, r.2)
    else if inCode then
      let r := processLines orig rest inCode acc
      (line :: r.1, r.2)
    else
      let s := scanBareUrls orig (line.length + 1) 0 line acc
      let r := processLines orig rest inCode s.2
      (s.1 :: r.1, r.2)

/-- Split a character list on a separator character (Python
`str.split('\n')`). -/
def splitOnChar (sep : Char) : List Char → List (List Char)
  | [] => [[]]
  | c :: cs =>
    let r := splitOnChar sep cs
    if c = sep then [] :: r
    else
      match r with
      | [] => [[c]]
      | l :: ls => (c :: l) :: ls

/-- Join lines with `'\n'` (Python `'\n'.join`). -/
def joinLines : List (List Char) → List Char
  | [] => []
  | [l] => l
  | l :: ls => l ++ '\n' :: joinLines ls

/-- `preprocess_markdown_links` (link_handler.py, lines 7-75). -/
def preprocessMarkdownLinks (markdownContent : String) :
    String × List ExtractedLink :=
  let cs := markdownContent.toList
  let s1 := scanMdLinks (cs.length + 1) cs []
  let lines := splitOnChar '\n' s1.1
  let s2 := processLines cs lines false s1.2
  ((joinLines s2.1).asString, s2.2)

/-! ### `postprocess_notion_blocks` (link_handler.py, lines 77-146)

`process_block` recurses generically over the JSON tree.  On the block
shapes of `Block` its action is: every `{"type": "text", "text": {...}}`
item reached through the tree gets the placeholder resolution below
(`processItem`); items inside table cells are reached twice — once by the
explicit table branch (lines 96-107) and a second time by the generic
recursion over the table block's values (lines 131-134) — all other fields
are left unchanged. -/

/-- Placeholder resolution for one rich-text item (lines 110-129): the
placeholders are scanned in creation order, first for bare containment of
the token in the content, then for bracket-wrapped containment; on the
first hit the content is replaced by the stored display text, the link is
set to the stored url, and processing of the item stops. -/
def processItem (lookup : List ExtractedLink) (it : RichText) : RichText :=
  match lookup.find? (fun l => strContains it.content l.placeholder) with
  | some l => { it with content := l.text, link := some l.url }
  | none =>
    match lookup.find?
        (fun l => strContains it.content ("[" ++ l.placeholder ++ "]")) with
    | some l => { it with content := l.text, link := some l.url }
    | none => it

/-- `process_block` on one block of the shapes produced by the built-in
backend. -/
def processBlock (lookup : List ExtractedLink) : Block → Block
  | .heading1 rts => .heading1 (rts.map (processItem lookup))
  | .heading2 rts => .heading2 (rts.map (processItem lookup))
  | .heading3 rts => .heading3 (rts.map (processItem lookup))
  | .paragraph rts => .paragraph (rts.map (processItem lookup))
  | .bulletedListItem rts => .bulletedListItem (rts.map (processItem lookup))
  | .numberedListItem rts => .numberedListItem (rts.map (processItem lookup))
  | .quote rts => .quote (rts.map (processItem lookup))
  | .code rts lang => .code (rts.map (processItem lookup)) lang
  | .divider => .divider
  | .image u => .image u
  | .table w hc hr rows =>
    .table w hc hr (rows.map (fun row =>
      ⟨row.cells.map (fun cell =>
        cell.map (fun it => processItem lookup (processItem lookup it)))⟩))

/-- `postprocess_notion_blocks` (lines 77-146): returns the blocks unchanged
when no links were extracted, otherwise maps `process_block` over the block
list. -/
def postprocessNotionBlocks (blocks : List Block)
    (extractedLinks : List ExtractedLink) : List Block :=
  if extractedLinks.isEmpty then blocks
  else blocks.map (processBlock extractedLinks)

/-- `fix_markdown_links` (lines 148-169): preprocess, run the supplied
backend on the masked text, postprocess when any link was extracted. -/
def fixMarkdownLinks (converterFunc : String → List Block)
    (markdownContent : String) : List Block :=
  let pr := preprocessMarkdownLinks markdownContent
  let blocks := converterFunc pr.1
  if pr.2.isEmpty then blocks else postprocessNotionBlocks blocks pr.2

/-- All rich-text items contained in a block (table cells included). -/
def runsOf : Block → List RichText
  | .heading1 rts => rts
  | .heading2 rts => rts
  | .heading3 rts => rts
  | .paragraph rts => rts
  | .bulletedListItem rts => rts
  | .numberedListItem rts => rts
  | .quote rts => rts
  | .code rts _ => rts
  | .divider => []
  | .image _ => []
  | .table _ _ _ rows => rows.flatMap (fun row => row.cells.flatMap id)

/-- All rich-text items of a block sequence. -/
def allRuns (blocks : List Block) : List RichText :=
  blocks.flatMap runsOf

/-! ### The parsed-HTML model and the built-in backend
(`MarkdownConverter._convert_with_bs4`, markdown_converter.py lines 193-584)

The `markdown` and `bs4` libraries are external collaborators: the embedding
starts from the parsed document, a list of nodes that are either bare text
(`NavigableString`) or tags with a name, attributes and children.  The
`class` attribute of a tag is stored space-separated, as in HTML, and split
where BeautifulSoup would present it as a list. -/

inductive Element where
  | text (s : String)
  | tag (name : String) (attrs : List (String × String))
      (children : List Element)

/-- Attribute lookup (`element['attr']` / `has_attr`). -/
def getAttr (attrs : List (String × String)) (key : String) : Option String :=
  (attrs.find? (fun p => p.1 = key)).map (fun p => p.2)

mutual

/-- `element.get_text()`: concatenation of all descendant text, in document
order. -/
def getTextE : Element → String
  | .text s => s
  | .tag _ _ children => getTextL children

def getTextL : List Element → String
  | [] => ""
  | e :: es => getTextE e ++ getTextL es

end

mutual

/-- `element.find(name)`: first descendant tag with the given name, in
document order (the element itself is not a candidate). -/
def findDescE (nm : String) : Element → Option Element
  | .text _ => none
  | .tag _ _ children => findDescL nm children

def findDescL (nm : String) : List Element → Option Element
  | [] => none
  | .text _ :: es => findDescL nm es
  | .tag n a c :: es =>
    if n = nm then some (.tag n a c)
    else
      match findDescL nm c with
      | some r => some r
      | none => findDescL nm es

end

mutual

/-- `element.find_all(names)`: all descendant tags whose name is in `nms`,
in document order. -/
def findAllE (nms : List String) : Element → List Element
  | .text _ => []
  | .tag _ _ children => findAllL nms children

def findAllL (nms : List String) : List Element → List Element
  | [] => []
  | .text _ :: es => findAllL nms es
  | .tag n a c :: es =>
    (if nms.contains n then [Element.tag n a c] else []) ++
      findAllL nms c ++ findAllL nms es

end

/-- Immediate child tags with a given name
(`element.find_all(name, recursive=False)`). -/
def childTags (nm : String) (children : List Element) : List Element :=
  children.filter (fun e =>
    match e with
    | .tag n _ _ => n = nm
    | .text _ => false)

/-- The annotation assigned to a child tag by the `elif` chain of
`process_rich_text_element` (lines 327-337). -/
def tagMark (nm : String) : Option Mark :=
  if nm = "strong" || nm = "b" then some .bold
  else if nm = "em" || nm = "i" then some .italic
  else if nm = "u" then some .underline
  else if nm = "code" then some .codeMark
  else if nm = "del" || nm = "s" then some .strikethrough
  else none

/-- The link attached to a decorated child: `child.find('a')`, then the
`href` attribute if the found tag has one (lines 321-325). -/
def childLink (child : Element) : Option String :=
  match findDescE "a" child with
  | some (.tag _ aattrs _) => getAttr aattrs "href"
  | _ => none

/-- The children loop of `process_rich_text_element` (lines 276-341):
a bare-text child becomes an unannotated run unless whitespace-only; an
`a`-with-`href` child becomes a link run unless its text is empty; any
other tag child with nonempty text becomes one run carrying its flattened
text, the first nested link if any, and the annotation of its tag. -/
def processChildren : List Element → List RichText
  | [] => []
  | .text s :: rest =>
    (if pyStripStr s ≠ "" then [⟨s, none, none⟩] else []) ++
      processChildren rest
  | .tag cname cattrs cch :: rest =>
    (if cname = "a" && (getAttr cattrs "href").isSome then
      (if getTextL cch ≠ "" then
        [⟨getTextL cch, getAttr cattrs "href", none⟩] else [])
    else
      (if getTextL cch = "" then []
       else [⟨getTextL cch, childLink (.tag cname cattrs cch),
         tagMark cname⟩])) ++
      processChildren rest

/-- `process_rich_text_element` (lines 250-341).  A bare string becomes a
single run with no emptiness check; an `a`-with-`href` element becomes one
link run covering its whole flattened text; otherwise the children are
processed in order. -/
def prte : Element → List RichText
  | .text s => [⟨s, none, none⟩]
  | .tag name attrs children =>
    if name = "a" && (getAttr attrs "href").isSome then
      (if getTextL children ≠ "" then
        [⟨getTextL children, getAttr attrs "href", none⟩] else [])
    else
      processChildren children

/-- The empty-content run appended when padding short table rows
(line 475). -/
def padCell : List RichText := [⟨"", none, none⟩]

/-- Pad a row's cell list to the table width with `padCell`s, then truncate
surplus cells (lines 473-479). -/
def normalizeCells (width : Nat) (cells : List (List RichText)) :
    List (List RichText) :=
  let padded :=
    if cells.length < width then
      cells ++ List.replicate (width - cells.length) padCell
    else cells
  if width < padded.length then padded.take width else padded

/-- The `table` branch of `_convert_with_bs4` (lines 438-502): rows are all
descendant `tr`s; the width is the cell count of the first row (no rows or
zero cells ⇒ no block); header presence is `first_row.find('th')`; every
row's cells go through `process_rich_text_element` and are padded/truncated
to the width. -/
def convertTable (el : Element) : List Block :=
  match findAllE ["tr"] el with
  | [] => []
  | firstRow :: restRows =>
    if (findAllE ["th", "td"] firstRow).length = 0 then []
    else
      [.table (findAllE ["th", "td"] firstRow).length
        (findDescE "th" firstRow).isSome false
        ((firstRow :: restRows).map (fun row =>
          TableRow.mk (normalizeCells (findAllE ["th", "td"] firstRow).length
            ((findAllE ["th", "td"] row).map prte))))]

/-- The code-language extraction of the `pre` branch (lines 411-418):
the first `language-`-prefixed class of the inner `code` element, with the
prefix removed, defaulting to `"plain text"`. -/
def codeLanguage (el : Element) : String :=
  match findDescE "code" el with
  | some (.tag _ cattrs _) =>
    match getAttr cattrs "class" with
    | some clsStr =>
      match (clsStr.splitOn " ").find?
          (fun cls => cls.startsWith "language-") with
      | some cls => cls.drop 9
      | none => "plain text"
    | none => "plain text"
  | _ => "plain text"

/-- The element dispatch of `_convert_with_bs4` (lines 344-584), one
top-level node at a time. -/
def convertElement : Element → List Block
  | .text _ => []
  | .tag name attrs children =>
    if name = "h1" then [.heading1 (prte (.tag name attrs children))]
    else if name = "h2" then [.heading2 (prte (.tag name attrs children))]
    else if name = "h3" then [.heading3 (prte (.tag name attrs children))]
    else if name = "p" then
      (if pyStripStr (getTextE (.tag name attrs children)) = "" then []
       else [.paragraph (prte (.tag name attrs children))])
    else if name = "ul" then
      (childTags "li" children).map (fun li => .bulletedListItem (prte li))
    else if name = "ol" then
      (childTags "li" children).map (fun li => .numberedListItem (prte li))
    else if name = "blockquote" then
      [.quote (prte (.tag name attrs children))]
    else if name = "pre" then
      [.code [⟨getTextE (.tag name attrs children), none, none⟩]
        (codeLanguage (.tag name attrs children))]
    else if name = "hr" then [.divider]
    else if name = "table" then convertTable (.tag name attrs children)
    else if name = "img" && (getAttr attrs "src").isSome then
      (if ((getAttr attrs "src").getD "").startsWith "http://" ||
          ((getAttr attrs "src").getD "").startsWith "https://" then
        [.image ((getAttr attrs "src").getD "")]
       else [])
    else if name = "div" || name = "span" then
      (if (children.filterMap (fun ch =>
            match ch with
            | .tag "p" _ _ => some (Block.paragraph (prte ch))
            | _ => none)).isEmpty then
        [.paragraph (prte (.tag name attrs children))]
       else
        children.filterMap (fun ch =>
          match ch with
          | .tag "p" _ _ => some (Block.paragraph (prte ch))
          | _ => none))
    else
      (if pyStripStr (getTextE (.tag name attrs children)) ≠ "" then
        [.paragraph [⟨pyStripStr (getTextE (.tag name attrs children)),
          none, none⟩]]
       else [])

/-- The top-level loop over `soup.children` (line 344): strings are
skipped, each tag is dispatched. -/
def convertElements (els : List Element) : List Block :=
  els.flatMap convertElement

/-! ### The converter façade (markdown_converter.py lines 31-84, 673-851)

Python's dynamic input values (`str` or "pyglove.List"-like objects) are
modelled by the coercion interface the code probes: the class name, the
result of `str()` (`none` = raises), the `to_json` method (`none` = absent,
`some none` = raises), iterability (`none` = not iterable), and
truthiness.  An input is a plain string or such an object.  Exceptions are
modelled by `Except Unit`. -/

inductive PyVal where
  | mk (className : String) (strFn : Option String)
      (toJsonFn : Option (Option String)) (iterFn : Option (List PyVal))
      (falsy : Bool)

def PyVal.className : PyVal → String
  | .mk c _ _ _ _ => c

def PyVal.strFn : PyVal → Option String
  | .mk _ s _ _ _ => s

def PyVal.toJsonFn : PyVal → Option (Option String)
  | .mk _ _ j _ _ => j

def PyVal.iterFn : PyVal → Option (List PyVal)
  | .mk _ _ _ i _ => i

def PyVal.falsy : PyVal → Bool
  | .mk _ _ _ _ f => f

/-- A conversion input after zero or more normalization steps: a real
Python string or a non-string object. -/
abbrev PyMd := String ⊕ PyVal

/-- `'\n'.join([str(item) for item in ...])`; `none` when some `str(item)`
raises. -/
def joinStrs : List PyVal → Option String
  | [] => some ""
  | [v] => v.strFn
  | v :: vs =>
    match v.strFn, joinStrs vs with
    | some s, some rest => some (s ++ "\n" ++ rest)
    | _, _ => none

/-- `if not md_content` on the current value. -/
def pyFalsy : PyMd → Bool
  | .inl s => s = ""
  | .inr o => o.falsy

/-- Outcome of the shared try/except normalization block. -/
inductive NormResult where
  | val (md : PyMd)
  | emptyReturn
  | raised

/-- The `except` branch of the shared normalization: `to_json` if present
(its own failure falling back to joining an iterable, whose failure
propagates out of the handler), `return []` when neither works; when the
object has no `to_json` attribute nothing further happens and the object
passes through unchanged. -/
def normExceptBranch (o : PyVal) : NormResult :=
  match o.toJsonFn with
  | none => .val (.inr o)
  | some (some j) => .val (.inl j)
  | some none =>
    match o.iterFn with
    | some items =>
      match joinStrs items with
      | some j => .val (.inl j)
      | none => .raised
    | none => .emptyReturn

/-- The identical try/except normalization of `_convert_with_martian`
(lines 96-120), `_convert_with_bs4` (lines 203-227) and
`clean_markdown_to_notion_blocks` (lines 721-746): `str()` first, joining
the items instead when the value is iterable and `str()` gave only
whitespace; any failure in the `try` enters `normExceptBranch`. -/
def sharedNormalize : PyMd → NormResult
  | .inl s => .val (.inl s)
  | .inr o =>
    match o.strFn with
    | none => normExceptBranch o
    | some s =>
      match o.iterFn with
      | none => .val (.inl s)
      | some items =>
        if pyStripStr s = "" then
          match joinStrs items with
          | some j => .val (.inl j)
          | none => normExceptBranch o
        else .val (.inl s)

/-- The external collaborators and import-time flags of the converter:
whether `link_handler` imported (`LINK_HANDLER_AVAILABLE`), whether
`markdown`/`bs4` imported (`MARKDOWN_LIBS_AVAILABLE`), whether
`markdown_to_notion.js` exists, the martian bridge of
`_convert_with_martian` (lines 146-183; every failure path there yields
`[]`), the node bridge of `clean_markdown_to_notion_blocks` (`none` =
non-zero exit, timeout or malformed JSON), and the
`markdown`+`BeautifulSoup` pipeline as a total function on strings. -/
structure ConvEnv where
  linkHandlerAvailable : Bool
  markdownLibsAvailable : Bool
  scriptExists : Bool
  martianBridge : String → List Block
  nodeRun : String → Option (List Block)
  bs4Backend : String → List Block

/-- `MarkdownConverter._convert_with_bs4` (lines 193-230 entry): normalize,
return `[]` for falsy input or missing libraries, then run the
markdown+bs4 pipeline; feeding a still-non-string value to
`markdown.markdown` raises. -/
def convertWithBs4 (env : ConvEnv) (md : PyMd) : Except Unit (List Block) :=
  match sharedNormalize md with
  | .raised => .error ()
  | .emptyReturn => .ok []
  | .val md' =>
    if pyFalsy md' || !env.markdownLibsAvailable then .ok []
    else
      match md' with
      | .inl s => .ok (env.bs4Backend s)
      | .inr _ => .error ()

/-- `MarkdownConverter._convert_with_martian` (lines 86-191): normalize,
return `[]` for falsy input, raise `FileNotFoundError` when the bridge
script is missing, otherwise run the bridge (whose own failures all yield
`[]`); writing a still-non-string value to the scratch file raises. -/
def convertWithMartian (env : ConvEnv) (md : PyMd) :
    Except Unit (List Block) :=
  match sharedNormalize md with
  | .raised => .error ()
  | .emptyReturn => .ok []
  | .val md' =>
    if pyFalsy md' then .ok []
    else if !env.scriptExists then .error ()
    else
      match md' with
      | .inl s => .ok (env.martianBridge s)
      | .inr _ => .error ()

/-- The input normalization of `MarkdownConverter.convert` (lines 56-68):
it fires only for objects whose class is named `List`; unlike the shared
normalization, its `to_json` call and its item-joining fallback are NOT
inside a `try`, so their failure — or the object not being iterable —
raises out of `convert`. -/
def convertNormalize (md : PyMd) : Except Unit PyMd :=
  match md with
  | .inl _ => .ok md
  | .inr o =>
    if o.className = "List" then
      match o.strFn with
      | some s => .ok (.inl s)
      | none =>
        match o.toJsonFn with
        | some (some j) => .ok (.inl j)
        | some none => .error ()
        | none =>
          match o.iterFn with
          | some items =>
            match joinStrs items with
            | some j => .ok (.inl j)
            | none => .error ()
          | none => .error ()
    else .ok md

/-- `MarkdownConverter.convert` (lines 47-84): normalize, return `[]` for
falsy input, try the martian backend when enabled (its exceptions are
caught, and an empty result also falls through), else/then the bs4
fallback. -/
def converterConvert (env : ConvEnv) (useMartian : Bool) (md : PyMd) :
    Except Unit (List Block) :=
  match convertNormalize md with
  | .error e => .error e
  | .ok md' =>
    if pyFalsy md' then .ok []
    else if useMartian then
      match convertWithMartian env md' with
      | .ok blocks =>
        if blocks.isEmpty then convertWithBs4 env md' else .ok blocks
      | .error _ => convertWithBs4 env md'
    else convertWithBs4 env md'

/-- Match `https?://[^\s]+` at the head of the input (the URL autolink
pattern of `process_table_with_links`, line 700). -/
def tryUrlSimple (cs : List Char) : Option (List Char) :=
  match cs with
  | 'h' :: 't' :: 't' :: 'p' :: rest =>
    let sr : List Char × List Char :=
      match rest with
      | 's' :: r => ("https".toList, r)
      | r => ("http".toList, r)
    match sr.2 with
    | ':' :: '/' :: '/' :: rest2 =>
      let body := rest2.takeWhile (fun c => !pyWs c)
      if body.isEmpty then none
      else some (sr.1 ++ ':' :: '/' :: '/' :: body)
    | _ => none
  | _ => none

/-- `re.search(r'https?://[^\s]+', s)`: the leftmost match. -/
def findUrlS : List Char → Option String
  | [] => none
  | c :: rest =>
    match tryUrlSimple (c :: rest) with
    | some url => some url.asString
    | none => findUrlS rest

/-- `process_table_with_links` (lines 673-706): inside a table block, every
cell item with nonempty content and no link yet gets a link to the first
`https?://`-match inside its content, if any. -/
def processTableWithLinks : Block → Block
  | .table w hc hr rows =>
    .table w hc hr (rows.map (fun row =>
      ⟨row.cells.map (fun cell => cell.map (fun it =>
        if it.content ≠ "" && it.link.isNone then
          match findUrlS it.content.toList with
          | some u => { it with link := some u }
          | none => it
        else it))⟩))
  | b => b

/-- `clean_markdown_to_notion_blocks` (lines 708-807): normalize, `[]` for
falsy input, fall back to `MarkdownConverter.convert` when the bridge
script is missing, when writing/running it fails, or when its output is
malformed; on bridge success apply `process_table_with_links` to the table
blocks.  NOTE: no path applies `preprocess_markdown_links` /
`postprocess_notion_blocks`. -/
def cleanMarkdownToNotionBlocks (env : ConvEnv) (md : PyMd) :
    Except Unit (List Block) :=
  match sharedNormalize md with
  | .raised => .error ()
  | .emptyReturn => .ok []
  | .val md' =>
    if pyFalsy md' then .ok []
    else if !env.scriptExists then converterConvert env true md'
    else
      match md' with
      | .inr _ => converterConvert env true md'
      | .inl s =>
        match env.nodeRun s with
        | some blocks =>
          .ok (blocks.map (fun b =>
            match b with
            | .table _ _ _ _ => processTableWithLinks b
            | _ => b))
        | none => converterConvert env true md'

/-- `markdown_to_notion_blocks` (lines 809-851): with `fix_links` set and
the link handler importable it returns `clean_markdown_to_notion_blocks`,
otherwise a fresh `MarkdownConverter(use_martian).convert`.  The `debug`
parameter only prints diagnostics and never changes the returned blocks;
it is omitted here. -/
def markdownToNotionBlocks (env : ConvEnv) (md : PyMd)
    (useMartian fixLinks : Bool) : Except Unit (List Block) :=
  if fixLinks && env.linkHandlerAvailable then
    cleanMarkdownToNotionBlocks env md
  else converterConvert env useMartian md

/-! ### Lemmas about substring containment -/

theorem prefixOfL_drop_of_append {a p h : List Char}
    (hp : prefixOfL (a ++ p) h = true) :
    prefixOfL p (h.drop a.length) = true := by
  induction a generalizing h with
  | nil => simpa using hp
  | cons x xs ih =>
    cases h with
    | nil => simp [prefixOfL] at hp
    | cons y ys =>
      simp only [List.cons_append, prefixOfL, Bool.and_eq_true] at hp
      simpa using ih hp.2

theorem prefixOfL_of_append_right {p b h : List Char}
    (hp : prefixOfL (p ++ b) h = true) : prefixOfL p h = true := by
  induction p generalizing h with
  | nil => simp [prefixOfL]
  | cons x xs ih =>
    cases h with
    | nil => simp [prefixOfL] at hp
    | cons y ys =>
      simp only [List.cons_append, prefixOfL, Bool.and_eq_true] at hp ⊢
      exact ⟨hp.1, ih hp.2⟩

theorem substrOfL_of_prefixOfL {p h : List Char}
    (hp : prefixOfL p h = true) : substrOfL p h = true := by
  cases h with
  | nil => simpa [substrOfL] using hp
  | cons y ys => simp [substrOfL, hp]

theorem substrOfL_of_drop {p h : List Char} (n : Nat)
    (hs : substrOfL p (h.drop n) = true) : substrOfL p h = true := by
  induction n generalizing h with
  | zero => simpa using hs
  | succ m ih =>
    cases h with
    | nil => simpa using hs
    | cons y ys =>
      simp only [List.drop_succ_cons] at hs
      simp [substrOfL, ih hs]

theorem substrOfL_of_middle {a p b h : List Char}
    (hs : substrOfL (a ++ p ++ b) h = true) : substrOfL p h = true := by
  induction h with
  | nil =>
    simp only [substrOfL] at hs
    cases hap : a ++ p ++ b with
    | nil =>
      have hp : p = [] := (List.append_eq_nil.mp (List.append_eq_nil.mp hap).1).2
      simp [substrOfL, prefixOfL, hp]
    | cons c cs =>
      rw [hap] at hs
      simp [prefixOfL] at hs
  | cons y ys ih =>
    simp only [substrOfL, Bool.or_eq_true] at hs
    rcases hs with hp | htail
    · have h1 : prefixOfL (a ++ p) (y :: ys) = true :=
        prefixOfL_of_append_right (by simpa [List.append_assoc] using hp)
      have h2 : prefixOfL p ((y :: ys).drop a.length) = true :=
        prefixOfL_drop_of_append h1
      exact substrOfL_of_drop a.length (substrOfL_of_prefixOfL h2)
    · simp [substrOfL, ih htail]

/-- Containment of the bracket-wrapped token implies containment of the
bare token (so the second placeholder loop of `process_block` can only fire
when the first already did). -/
theorem strContains_of_bracketed {s p : String}
    (h : strContains s ("[" ++ p ++ "]") = true) :
    strContains s p = true := by
  have h' : substrOfL (['['] ++ p.toList ++ [']']) s.toList = true := by
    simpa [strContains, String.toList, String.data_append] using h
  simpa [strContains] using substrOfL_of_middle h'

/-! ### Lemmas about placeholder resolution -/

/-- An item whose content contains none of the bare tokens is left
untouched by `processItem`. -/
theorem processItem_eq_self {lookup : List ExtractedLink} {it : RichText}
    (h : ∀ l ∈ lookup, strContains it.content l.placeholder = false) :
    processItem lookup it = it := by
  have h1 : lookup.find? (fun l => strContains it.content l.placeholder)
      = none := by
    rw [List.find?_eq_none]
    intro l hl
    simp [h l hl]
  have h2 : lookup.find?
      (fun l => strContains it.content ("[" ++ l.placeholder ++ "]"))
      = none := by
    rw [List.find?_eq_none]
    intro l hl
    intro hc
    have := @strContains_of_bracketed it.content l.placeholder
      (by simpa using hc)
    simp [h l hl] at this
  simp [processItem, h1, h2]

/-- `find?` on a list whose prefix fails the predicate and whose next
element passes it. -/
theorem find?_first {α : Type} (p : α → Bool) (pre post : List α) (l : α)
    (hpre : ∀ x ∈ pre, p x = false) (hl : p l = true) :
    (pre ++ l :: post).find? p = some l := by
  induction pre with
  | nil => simp [List.find?, hl]
  | cons x xs ih =>
    have hx : p x = false := hpre x (by simp)
    simp only [List.cons_append, List.find?, hx]
    exact ih (fun y hy => hpre y (by simp [hy]))

/-- First match wins: with the placeholders before `l` failing the bare
containment test and `l` passing it, resolution applies exactly `l`. -/
theorem processItem_first_match (pre post : List ExtractedLink)
    (l : ExtractedLink) (it : RichText)
    (hpre : ∀ x ∈ pre, strContains it.content x.placeholder = false)
    (hl : strContains it.content l.placeholder = true) :
    processItem (pre ++ l :: post) it =
      { it with content := l.text, link := some l.url } := by
  have hfind := find?_first (fun l => strContains it.content l.placeholder)
    pre post l (by simpa using hpre) (by simpa using hl)
  simp [processItem, hfind]

/-- Helper: a map whose function fixes every member is the identity. -/
theorem map_self_of_fixed {α : Type} {f : α → α} {l : List α}
    (h : ∀ a ∈ l, f a = a) : l.map f = l := by
  induction l with
  | nil => rfl
  | cons x xs ih =>
    simp only [List.map_cons, h x (by simp),
      ih (fun a ha => h a (by simp [ha]))]

/-- A block none of whose runs contains any bare token is left untouched by
`process_block` (bracketed containment being impossible too, by
`strContains_of_bracketed`). -/
theorem processBlock_eq_self {lookup : List ExtractedLink} {b : Block}
    (h : ∀ r ∈ runsOf b, ∀ l ∈ lookup,
      strContains r.content l.placeholder = false) :
    processBlock lookup b = b := by
  cases b with
  | table w hc hr rows =>
    simp only [processBlock, Block.table.injEq, true_and]
    apply map_self_of_fixed
    intro row hrow
    have hcells : row.cells.map (fun cell =>
        cell.map (fun it => processItem lookup (processItem lookup it)))
        = row.cells := by
      apply map_self_of_fixed
      intro cell hcell
      apply map_self_of_fixed
      intro it hit
      have hmem : it ∈ runsOf (.table w hc hr rows) := by
        simp only [runsOf, List.mem_flatMap]
        exact ⟨row, hrow, by simpa [List.mem_flatMap] using ⟨cell, hcell, hit⟩⟩
      rw [processItem_eq_self (h it hmem), processItem_eq_self (h it hmem)]
    cases row
    simpa using hcells
  | divider => rfl
  | image u => rfl
  | heading1 rts =>
    simpa [processBlock] using
      map_self_of_fixed (fun r hr => processItem_eq_self (h r (by simpa [runsOf] using hr)))
  | heading2 rts =>
    simpa [processBlock] using
      map_self_of_fixed (fun r hr => processItem_eq_self (h r (by simpa [runsOf] using hr)))
  | heading3 rts =>
    simpa [processBlock] using
      map_self_of_fixed (fun r hr => processItem_eq_self (h r (by simpa [runsOf] using hr)))
  | paragraph rts =>
    simpa [processBlock] using
      map_self_of_fixed (fun r hr => processItem_eq_self (h r (by simpa [runsOf] using hr)))
  | bulletedListItem rts =>
    simpa [processBlock] using
      map_self_of_fixed (fun r hr => processItem_eq_self (h r (by simpa [runsOf] using hr)))
  | numberedListItem rts =>
    simpa [processBlock] using
      map_self_of_fixed (fun r hr => processItem_eq_self (h r (by simpa [runsOf] using hr)))
  | quote rts =>
    simpa [processBlock] using
      map_self_of_fixed (fun r hr => processItem_eq_self (h r (by simpa [runsOf] using hr)))
  | code rts lang =>
    simpa [processBlock] using
      map_self_of_fixed (fun r hr => processItem_eq_self (h r (by simpa [runsOf] using hr)))

/-- Every run of a block survives into the processed block, resolved once
(ordinary block content) or twice (table cells, which the generic recursion
of `process_block` revisits). -/
theorem mem_runsOf_processBlock {lookup : List ExtractedLink} {b : Block}
    {r : RichText} (h : r ∈ runsOf b) :
    processItem lookup r ∈ runsOf (processBlock lookup b) ∨
      processItem lookup (processItem lookup r) ∈
        runsOf (processBlock lookup b) := by
  cases b with
  | table w hc hr rows =>
    right
    simp only [runsOf, List.mem_flatMap] at h
    obtain ⟨row, hrow, hr2⟩ := h
    simp only [List.mem_flatMap, List.mem_map, id] at hr2
    obtain ⟨cell, hcell, hit⟩ := hr2
    simp only [processBlock, runsOf, List.mem_flatMap]
    refine ⟨⟨row.cells.map (fun cell => cell.map
      (fun it => processItem lookup (processItem lookup it)))⟩,
      List.mem_map_of_mem _ hrow, ?_⟩
    simp only [List.mem_flatMap, id, List.mem_map]
    exact ⟨cell.map (fun it => processItem lookup (processItem lookup it)),
      ⟨cell, hcell, rfl⟩, List.mem_map_of_mem _ hit⟩
  | divider => simp [runsOf] at h
  | image u => simp [runsOf] at h
  | heading1 rts => exact Or.inl (by simpa [processBlock, runsOf] using List.mem_map_of_mem _ h)
  | heading2 rts => exact Or.inl (by simpa [processBlock, runsOf] using List.mem_map_of_mem _ h)
  | heading3 rts => exact Or.inl (by simpa [processBlock, runsOf] using List.mem_map_of_mem _ h)
  | paragraph rts => exact Or.inl (by simpa [processBlock, runsOf] using List.mem_map_of_mem _ h)
  | bulletedListItem rts => exact Or.inl (by simpa [processBlock, runsOf] using List.mem_map_of_mem _ h)
  | numberedListItem rts => exact Or.inl (by simpa [processBlock, runsOf] using List.mem_map_of_mem _ h)
  | quote rts => exact Or.inl (by simpa [processBlock, runsOf] using List.mem_map_of_mem _ h)
  | code rts lang => exact Or.inl (by simpa [processBlock, runsOf] using List.mem_map_of_mem _ h)

/-! ### Further helper lemmas and concrete material for the claims -/

/-- When preprocessing extracted exactly one link whose display text does
not itself contain the token, any backend run whose content contains the
token resolves, inside `fix_markdown_links`, to a run with that link's
display text and url. -/
theorem fixMarkdownLinks_single_resolves (conv : String → List Block)
    (md masked : String) (l : ExtractedLink)
    (hpre : preprocessMarkdownLinks md = (masked, [l]))
    (hres : strContains l.text l.placeholder = false)
    (h : ∃ r ∈ allRuns (conv masked),
      strContains r.content l.placeholder = true) :
    ∃ r ∈ allRuns (fixMarkdownLinks conv md),
      r.content = l.text ∧ r.link = some l.url := by
  obtain ⟨r, hr, hc⟩ := h
  obtain ⟨b, hb, hrb⟩ := List.mem_flatMap.mp hr
  have hone : processItem [l] r =
      { r with content := l.text, link := some l.url } :=
    processItem_first_match [] [] l r (by simp) hc
  have htwo : processItem [l] { r with content := l.text, link := some l.url }
      = { r with content := l.text, link := some l.url } :=
    processItem_eq_self (by simpa using hres)
  have hmem := @mem_runsOf_processBlock [l] b r hrb
  rw [hone] at hmem
  rw [htwo] at hmem
  have hmem' : { r with content := l.text, link := some l.url }
      ∈ runsOf (processBlock [l] b) := by
    rcases hmem with h' | h' <;> exact h'
  refine ⟨{ r with content := l.text, link := some l.url }, ?_, rfl, rfl⟩
  simp only [fixMarkdownLinks, hpre]
  simp only [List.isEmpty_cons, Bool.false_eq_true, if_false,
    postprocessNotionBlocks, allRuns, List.mem_flatMap]
  exact ⟨processBlock [l] b, List.mem_map_of_mem _ hb, hmem'⟩

/-- A simple backend used to witness backend-parametric claims: the whole
input becomes one paragraph with one unannotated run. -/
def exConv : String → List Block :=
  fun s => [.paragraph [⟨s, none, none⟩]]

/-- An input with eleven markdown links, so that preprocessing creates the
placeholders `LINKPLACEHOLDER_0` … `LINKPLACEHOLDER_10`. -/
def md10 : String :=
  "[t0](http://u0)[t1](http://u1)[t2](http://u2)[t3](http://u3)" ++
  "[t4](http://u4)[t5](http://u5)[t6](http://u6)[t7](http://u7)" ++
  "[t8](http://u8)[t9](http://u9)[t10](http://u10)"

/-! ### The claims -/

/-- C1: Round-trip of link text through the full pipeline (preprocess,
backend conversion, postprocess): provided the backend keeps the
placeholder token inside some run of its output (as the built-in backend
does for these one-line inputs), the input `[Example](https://example.com)`
yields a run with content `Example` and link `https://example.com`, and the
bare URL `https://example.com` yields a run whose content and link both
equal the URL. -/
theorem c1_link_text_roundtrip (conv : String → List Block)
    (h1 : ∃ r ∈ allRuns (conv "[LINKPLACEHOLDER_0]"),
      strContains r.content "LINKPLACEHOLDER_0" = true)
    (h2 : ∃ r ∈ allRuns (conv "URLLINKPLACEHOLDER_0"),
      strContains r.content "URLLINKPLACEHOLDER_0" = true) :
    (∃ r ∈ allRuns (fixMarkdownLinks conv "[Example](https://example.com)"),
      r.content = "Example" ∧ r.link = some "https://example.com") ∧
    (∃ r ∈ allRuns (fixMarkdownLinks conv "https://example.com"),
      r.content = "https://example.com" ∧
        r.link = some "https://example.com") := by
  constructor
  · exact fixMarkdownLinks_single_resolves conv _ "[LINKPLACEHOLDER_0]"
      ⟨"LINKPLACEHOLDER_0", "Example", "https://example.com"⟩
      (by decide) (by decide) h1
  · exact fixMarkdownLinks_single_resolves conv _ "URLLINKPLACEHOLDER_0"
      ⟨"URLLINKPLACEHOLDER_0", "https://example.com", "https://example.com"⟩
      (by decide) (by decide) h2

/-- Witness for C1 at the concrete backend `exConv`. -/
theorem c1_link_text_roundtrip_witness :
    (∃ r ∈ allRuns (fixMarkdownLinks exConv "[Example](https://example.com)"),
      r.content = "Example" ∧ r.link = some "https://example.com") ∧
    (∃ r ∈ allRuns (fixMarkdownLinks exConv "https://example.com"),
      r.content = "https://example.com" ∧
        r.link = some "https://example.com") :=
  c1_link_text_roundtrip exConv (by decide) (by decide)

/-- C5: a run whose content equals or contains a known token (bare or
bracket-wrapped) is resolved by postprocessing to exactly one of the
matching placeholders: its whole content is replaced by that placeholder's
display text and its link is set to that placeholder's url, and the run
takes part in no further replacement (the result carries exactly that one
link). -/
theorem c5_run_resolution (lookup : List ExtractedLink) (it : RichText)
    (h : ∃ l ∈ lookup, strContains it.content l.placeholder = true ∨
      strContains it.content ("[" ++ l.placeholder ++ "]") = true) :
    ∃ l ∈ lookup,
      (strContains it.content l.placeholder = true ∨
        strContains it.content ("[" ++ l.placeholder ++ "]") = true) ∧
      processItem lookup it =
        { it with content := l.text, link := some l.url } := by
  rcases hfind : lookup.find? (fun l => strContains it.content l.placeholder)
    with _ | l₀
  · exfalso
    obtain ⟨l, hl, hc⟩ := h
    have hnone := List.find?_eq_none.mp hfind l hl
    rcases hc with hc | hc
    · simp [hc] at hnone
    · have := @strContains_of_bracketed it.content l.placeholder hc
      simp [this] at hnone
  · refine ⟨l₀, List.mem_of_find?_eq_some hfind,
      Or.inl (by simpa using List.find?_some hfind), ?_⟩
    simp [processItem, hfind]

/-- Witness for C5 at a concrete lookup table and run. -/
theorem c5_run_resolution_witness :
    ∃ l ∈ [ExtractedLink.mk "LINKPLACEHOLDER_0" "Docs" "https://d.com"],
      (strContains "see [LINKPLACEHOLDER_0] here" l.placeholder = true ∨
        strContains "see [LINKPLACEHOLDER_0] here"
          ("[" ++ l.placeholder ++ "]") = true) ∧
      processItem [ExtractedLink.mk "LINKPLACEHOLDER_0" "Docs" "https://d.com"]
          ⟨"see [LINKPLACEHOLDER_0] here", none, none⟩ =
        ⟨l.text, some l.url, none⟩ :=
  by
  exact c5_run_resolution [⟨"LINKPLACEHOLDER_0", "Docs", "https://d.com"⟩]
    ⟨"see [LINKPLACEHOLDER_0] here", none, none⟩
    ⟨⟨"LINKPLACEHOLDER_0", "Docs", "https://d.com"⟩, by decide, Or.inl (by decide)⟩

/-- C8: zero-link identity — with an empty placeholder list, postprocessing
returns the blocks unchanged; and postprocessing with any placeholder list
leaves a block sequence unchanged when no token occurs in any of its runs. -/
theorem c8_zero_link_identity (lookup : List ExtractedLink)
    (blocks : List Block)
    (h : ∀ b ∈ blocks, ∀ r ∈ runsOf b, ∀ l ∈ lookup,
      strContains r.content l.placeholder = false) :
    postprocessNotionBlocks blocks [] = blocks ∧
    postprocessNotionBlocks blocks lookup = blocks := by
  refine ⟨by simp [postprocessNotionBlocks], ?_⟩
  unfold postprocessNotionBlocks
  split
  · rfl
  · exact map_self_of_fixed (fun b hb => processBlock_eq_self (h b hb))

/-- Witness for C8 at a concrete placeholder list and block sequence. -/
theorem c8_zero_link_identity_witness :
    postprocessNotionBlocks
        [Block.paragraph [⟨"hello world", none, none⟩]] [] =
      [Block.paragraph [⟨"hello world", none, none⟩]] ∧
    postprocessNotionBlocks
        [Block.paragraph [⟨"hello world", none, none⟩]]
        [⟨"LINKPLACEHOLDER_0", "Docs", "https://d.com"⟩] =
      [Block.paragraph [⟨"hello world", none, none⟩]] :=
  c8_zero_link_identity _ _ (by decide)

/-- C10 counterexample: on `md10`, preprocessing creates placeholders
`LINKPLACEHOLDER_0` … `LINKPLACEHOLDER_10`; a run containing the bare
tokens of placeholders 2 and 10 (indices i = 2 < j = 10) is resolved to
placeholder 1 — `t1` / `http://u1` — because the token of placeholder 1 is
a substring of the token of placeholder 10; so it does NOT receive
placeholder 2's display text and url, refuting the claim as stated. -/
theorem c10_order_counterexample :
    (preprocessMarkdownLinks md10).2.map (fun l => l.placeholder) =
      ["LINKPLACEHOLDER_0", "LINKPLACEHOLDER_1", "LINKPLACEHOLDER_2",
       "LINKPLACEHOLDER_3", "LINKPLACEHOLDER_4", "LINKPLACEHOLDER_5",
       "LINKPLACEHOLDER_6", "LINKPLACEHOLDER_7", "LINKPLACEHOLDER_8",
       "LINKPLACEHOLDER_9", "LINKPLACEHOLDER_10"] ∧
    processItem (preprocessMarkdownLinks md10).2
        ⟨"LINKPLACEHOLDER_2 LINKPLACEHOLDER_10", none, none⟩ =
      ⟨"t1", some "http://u1", none⟩ ∧
    (RichText.mk "t1" (some "http://u1") none ≠
      RichText.mk "t2" (some "http://u2") none) :=
  ⟨by decide, by decide, by decide⟩

/-- C10 amended: placeholders are tested in creation order and the FIRST
placeholder whose bare token is contained in the run's content wins (not
necessarily one of the two the content was built from, since an earlier
token can occur as a substring of a later one); in particular, because the
token of placeholder 1 is a prefix of the token of placeholder 10, a run
containing only placeholder 10's token resolves to placeholder 1's display
text and link. -/
theorem c10_resolution_order (pre post : List ExtractedLink)
    (l : ExtractedLink) (it : RichText)
    (hpre : ∀ x ∈ pre, strContains it.content x.placeholder = false)
    (hl : strContains it.content l.placeholder = true) :
    processItem (pre ++ l :: post) it =
      { it with content := l.text, link := some l.url } ∧
    processItem (preprocessMarkdownLinks md10).2
        ⟨"LINKPLACEHOLDER_10", none, none⟩ =
      ⟨"t1", some "http://u1", none⟩ :=
  ⟨processItem_first_match pre post l it hpre hl, by decide⟩

/-- Witness for C10 (amended) at a concrete placeholder split. -/
theorem c10_resolution_order_witness :
    processItem
        ([⟨"LINKPLACEHOLDER_0", "t0", "http://u0"⟩] ++
          ⟨"LINKPLACEHOLDER_1", "t1", "http://u1"⟩ ::
            [⟨"LINKPLACEHOLDER_2", "t2", "http://u2"⟩])
        ⟨"LINKPLACEHOLDER_1 and LINKPLACEHOLDER_2", none, none⟩ =
      ⟨"t1", some "http://u1", none⟩ ∧
    processItem (preprocessMarkdownLinks md10).2
        ⟨"LINKPLACEHOLDER_10", none, none⟩ =
      ⟨"t1", some "http://u1", none⟩ :=
  c10_resolution_order _ _ _ _ (by decide) (by decide)

/-- The fence state after a list of lines: every line whose stripped text
starts with the fence marker toggles it. -/
def foldFence (ls : List (List Char)) (st : Bool) : Bool :=
  ls.foldl (fun st l => if fenceLine l then !st else st) st

/-- The per-line loop splits over list append, the fence state being
threaded by `foldFence`. -/
theorem processLines_append (orig : List Char) (ls₁ ls₂ : List (List Char))
    (st : Bool) (acc : List ExtractedLink) :
    processLines orig (ls₁ ++ ls₂) st acc =
      ((processLines orig ls₁ st acc).1 ++
        (processLines orig ls₂ (foldFence ls₁ st)
          (processLines orig ls₁ st acc).2).1,
       (processLines orig ls₂ (foldFence ls₁ st)
          (processLines orig ls₁ st acc).2).2) := by
  induction ls₁ generalizing st acc with
  | nil => simp [processLines, foldFence]
  | cons l ls ih =>
    by_cases hf : fenceLine l
    · simp [processLines, hf, foldFence, ih, List.foldl_cons]
    · by_cases hc : st
      · simp [processLines, hf, hc, foldFence, ih, List.foldl_cons]
      · simp [processLines, hf, hc, foldFence, ih, List.foldl_cons]

/-- C6 evaluation at the failing input: in `[t](u)\nx](https://a.com` the
bare URL is immediately preceded by `](` in the input, yet preprocessing
replaces it by `URLLINKPLACEHOLDER_1` and records it — `replace_bare_url`
checks `markdown_content[match.start()-2 : match.start()]` with a
line-local offset against the whole original text, here reading `t]`
instead of `](`.  On a single unshifted line (second conjunct) the same
guard fires as the claim describes, leaving the URL unreplaced and
unrecorded. -/
theorem c6_skip_guard_misfires :
    preprocessMarkdownLinks "[t](u)\nx](https://a.com" =
      ("[LINKPLACEHOLDER_0]\nx](URLLINKPLACEHOLDER_1",
        [⟨"LINKPLACEHOLDER_0", "t", "u"⟩,
         ⟨"URLLINKPLACEHOLDER_1", "https://a.com", "https://a.com"⟩]) ∧
    preprocessMarkdownLinks "x](https://a.com" = ("x](https://a.com", []) :=
  ⟨by decide, by decide⟩

/-- The input of C4: the same URL outside and inside a fenced code block. -/
def md4 : String := "https://example.com\n```\nhttps://example.com\n```"

/-- C4: code-fence exclusion.  First part (general): a non-fence line whose
preceding lines put the scan in the in-code-block state is passed through
the bare-URL pass unchanged and records nothing.  Second part (end to end):
on `md4` preprocessing masks only the URL outside the fence, and for a
backend that turns the masked text into the paragraph+code shape the
built-in pipeline produces, the fenced URL comes out as plain text with no
link while the same URL outside the fence becomes a link. -/
theorem c4_code_fence_exclusion (orig : List Char)
    (ls₁ ls₂ : List (List Char)) (line : List Char)
    (acc : List ExtractedLink)
    (hstate : foldFence ls₁ false = true) (hline : fenceLine line = false)
    (conv : String → List Block)
    (hconv : conv "URLLINKPLACEHOLDER_0\n```\nhttps://example.com\n```" =
      [.paragraph [⟨"URLLINKPLACEHOLDER_0", none, none⟩],
       .code [⟨"https://example.com\n", none, none⟩] "plain text"]) :
    processLines orig (ls₁ ++ line :: ls₂) false acc =
      ((processLines orig ls₁ false acc).1 ++
        line :: (processLines orig ls₂ true
          (processLines orig ls₁ false acc).2).1,
       (processLines orig ls₂ true
          (processLines orig ls₁ false acc).2).2) ∧
    preprocessMarkdownLinks md4 =
      ("URLLINKPLACEHOLDER_0\n```\nhttps://example.com\n```",
        [⟨"URLLINKPLACEHOLDER_0", "https://example.com",
          "https://example.com"⟩]) ∧
    fixMarkdownLinks conv md4 =
      [.paragraph
        [⟨"https://example.com", some "https://example.com", none⟩],
       .code [⟨"https://example.com\n", none, none⟩] "plain text"] := by
  refine ⟨?_, by decide, ?_⟩
  · rw [processLines_append orig ls₁ (line :: ls₂) false acc, hstate]
    simp [processLines, hline]
  · have hpre : preprocessMarkdownLinks md4 =
        ("URLLINKPLACEHOLDER_0\n```\nhttps://example.com\n```",
          [⟨"URLLINKPLACEHOLDER_0", "https://example.com",
            "https://example.com"⟩]) := by decide
    simp only [fixMarkdownLinks, hpre, hconv]
    decide

/-- Witness for C4 at a concrete fence context and backend. -/
theorem c4_code_fence_exclusion_witness :
    processLines "x".toList (["```".toList] ++ "https://a.com".toList :: [])
        false [] =
      ((processLines "x".toList ["```".toList] false []).1 ++
        "https://a.com".toList ::
          (processLines "x".toList [] true
            (processLines "x".toList ["```".toList] false []).2).1,
       (processLines "x".toList [] true
          (processLines "x".toList ["```".toList] false []).2).2) ∧
    preprocessMarkdownLinks md4 =
      ("URLLINKPLACEHOLDER_0\n```\nhttps://example.com\n```",
        [⟨"URLLINKPLACEHOLDER_0", "https://example.com",
          "https://example.com"⟩]) ∧
    fixMarkdownLinks
        (fun _ => [.paragraph [⟨"URLLINKPLACEHOLDER_0", none, none⟩],
          .code [⟨"https://example.com\n", none, none⟩] "plain text"])
        md4 =
      [.paragraph
        [⟨"https://example.com", some "https://example.com", none⟩],
       .code [⟨"https://example.com\n", none, none⟩] "plain text"] :=
  c4_code_fence_exclusion "x".toList ["```".toList] [] "https://a.com".toList
    [] (by decide) (by decide)
    (fun _ => [.paragraph [⟨"URLLINKPLACEHOLDER_0", none, none⟩],
      .code [⟨"https://example.com\n", none, none⟩] "plain text"]) rfl

/-- A concrete environment: link handler and markdown libs importable,
bridge script missing, bridges trivial, built-in backend turning the whole
input into one paragraph run. -/
def env0 : ConvEnv where
  linkHandlerAvailable := true
  markdownLibsAvailable := true
  scriptExists := false
  martianBridge := fun _ => []
  nodeRun := fun _ => none
  bs4Backend := fun s => [.paragraph [⟨s, none, none⟩]]

/-- C2 counterexample: in `env0` the façade selects the built-in backend,
and its result on `[Example](https://example.com)` is the backend applied
to the RAW text — not `postprocess_notion_blocks` of the backend's output
on the preprocessed text, refuting the claim: `markdown_to_notion_blocks`
never invokes the Link Preservation Protocol. -/
theorem c2_facade_not_wrapped :
    markdownToNotionBlocks env0 (.inl "[Example](https://example.com)")
        true true ≠
      Except.ok (postprocessNotionBlocks
        (env0.bs4Backend
          (preprocessMarkdownLinks "[Example](https://example.com)").1)
        (preprocessMarkdownLinks "[Example](https://example.com)").2) := by
  intro h
  have hA : markdownToNotionBlocks env0
      (.inl "[Example](https://example.com)") true true =
      Except.ok [Block.paragraph
        [⟨"[Example](https://example.com)", none, none⟩]] := rfl
  rw [hA] at h
  have h' := Except.ok.inj h
  exact (by decide :
    [Block.paragraph [⟨"[Example](https://example.com)", none, none⟩]] ≠
      postprocessNotionBlocks
        (env0.bs4Backend
          (preprocessMarkdownLinks "[Example](https://example.com)").1)
        (preprocessMarkdownLinks "[Example](https://example.com)").2) h'

/-- C2 amended: neither path of `markdown_to_notion_blocks` applies the
Link Preservation Protocol.  With `fix_links` set and the link handler
importable the façade returns `clean_markdown_to_notion_blocks` verbatim;
and when the bridge script is missing (built-in path selected) the result
is the built-in backend applied to the raw, unmasked text —
`preprocess_markdown_links` / `postprocess_notion_blocks` are composed
around a backend only by `fix_markdown_links`, which the façade never
calls. -/
theorem c2_both_paths_unwrapped (env : ConvEnv) (md : String)
    (hlh : env.linkHandlerAvailable = true) (hmd : md ≠ "")
    (hscript : env.scriptExists = false)
    (hlibs : env.markdownLibsAvailable = true) :
    markdownToNotionBlocks env (.inl md) true true =
      cleanMarkdownToNotionBlocks env (.inl md) ∧
    markdownToNotionBlocks env (.inl md) true true =
      .ok (env.bs4Backend md) := by
  have hpath : markdownToNotionBlocks env (.inl md) true true =
      cleanMarkdownToNotionBlocks env (.inl md) := by
    simp [markdownToNotionBlocks, hlh]
  refine ⟨hpath, ?_⟩
  rw [hpath]
  have hfalsy : pyFalsy (.inl md) = false := by
    simp [pyFalsy, hmd]
  have hbs4 : convertWithBs4 env (.inl md) = .ok (env.bs4Backend md) := by
    simp [convertWithBs4, sharedNormalize, hfalsy, hlibs]
  have hmart : convertWithMartian env (.inl md) = .error () := by
    simp [convertWithMartian, sharedNormalize, hfalsy, hscript]
  have hconv : converterConvert env true (.inl md) =
      .ok (env.bs4Backend md) := by
    simp [converterConvert, convertNormalize, hfalsy, hmart, hbs4]
  simp [cleanMarkdownToNotionBlocks, sharedNormalize, hfalsy, hscript, hconv]

/-- Witness for C2 (amended) at `env0`. -/
theorem c2_both_paths_unwrapped_witness :
    markdownToNotionBlocks env0 (.inl "[Example](https://example.com)")
        true true =
      cleanMarkdownToNotionBlocks env0
        (.inl "[Example](https://example.com)") ∧
    markdownToNotionBlocks env0 (.inl "[Example](https://example.com)")
        true true =
      .ok (env0.bs4Backend "[Example](https://example.com)") :=
  c2_both_paths_unwrapped env0 "[Example](https://example.com)" rfl
    (by decide) rfl rfl

/-- An object of a class named `List` on which `str()` raises, with no
`to_json` method and no iteration. -/
def badList : PyVal := .mk "List" none none none false

/-- C9 counterexample: `MarkdownConverter.convert` on `badList` raises at
the input-normalization boundary (the `'\n'.join(...)` over a non-iterable
raises `TypeError` outside any `try`) instead of returning the empty block
sequence. -/
theorem c9_convert_raises :
    converterConvert env0 true (.inr badList) = .error () ∧
    (Except.error () ≠ (Except.ok [] : Except Unit (List Block))) :=
  ⟨rfl, fun h => Except.noConfusion h⟩

/-- C9 amended: `convert` never raises on string input (falsy input
yielding `[]`), but an object of a class named `List` whose `str()` raises
and which has neither a `to_json` method nor iteration makes `convert`
raise at the input-normalization boundary rather than return the empty
sequence (the deeper backends' own normalization would return `[]`
there). -/
theorem c9_normalization_boundary (env : ConvEnv) (u : Bool) (s : String)
    (o : PyVal) (ho : o.className = "List") (hstr : o.strFn = none)
    (hjson : o.toJsonFn = none) (hiter : o.iterFn = none) :
    (∃ bs, converterConvert env u (.inl s) = .ok bs) ∧
    converterConvert env u (.inl "") = .ok [] ∧
    converterConvert env u (.inr o) = .error () := by
  refine ⟨?_, ?_, ?_⟩
  · have hbs4 : ∃ bs, convertWithBs4 env (.inl s) = .ok bs := by
      simp only [convertWithBs4, sharedNormalize]
      split
      · exact ⟨[], rfl⟩
      · exact ⟨env.bs4Backend s, rfl⟩
    obtain ⟨bs, hbs⟩ := hbs4
    by_cases hs : s = ""
    · exact ⟨[], by simp [converterConvert, convertNormalize, pyFalsy, hs]⟩
    · have hfalsy : pyFalsy (.inl s) = false := by simp [pyFalsy, hs]
      simp only [converterConvert, convertNormalize, hfalsy,
        Bool.false_eq_true, if_false]
      cases u with
      | false => exact ⟨bs, by simp [hbs]⟩
      | true =>
        cases hm : convertWithMartian env (.inl s) with
        | error e => exact ⟨bs, by simp [hbs]⟩
        | ok blocks =>
          by_cases hb : blocks.isEmpty
          · exact ⟨bs, by simp [hb, hbs]⟩
          · exact ⟨blocks, by simp [hb]⟩
  · simp [converterConvert, convertNormalize, pyFalsy]
  · simp [converterConvert, convertNormalize, ho, hstr, hjson, hiter]

/-- Witness for C9 (amended) at `env0`, `"x"` and `badList`. -/
theorem c9_normalization_boundary_witness :
    (∃ bs, converterConvert env0 true (.inl "x") = .ok bs) ∧
    converterConvert env0 true (.inl "") = .ok [] ∧
    converterConvert env0 true (.inr badList) = .error () :=
  c9_normalization_boundary env0 true "x" badList rfl rfl rfl rfl

/-! ### Lemmas about the built-in backend -/

/-- The pad/truncate step always yields exactly `width` cells. -/
theorem normalizeCells_length (width : Nat) (cells : List (List RichText)) :
    (normalizeCells width cells).length = width := by
  simp only [normalizeCells]
  by_cases hlt : cells.length < width
  · simp only [hlt, if_true]
    have hlen : (cells ++ List.replicate (width - cells.length) padCell).length
        = width := by
      simp only [List.length_append, List.length_replicate]
      omega
    rw [hlen, if_neg (lt_irrefl width)]
    exact hlen
  · simp only [hlt, if_false]
    by_cases hgt : width < cells.length
    · rw [if_pos hgt, List.length_take]
      omega
    · rw [if_neg hgt]
      omega

/-- Every cell of a normalized row is a source cell or the padding cell. -/
theorem normalizeCells_mem {width : Nat} {cells : List (List RichText)}
    {c : List RichText} (h : c ∈ normalizeCells width cells) :
    c ∈ cells ∨ c = padCell := by
  simp only [normalizeCells] at h
  by_cases hlt : cells.length < width
  · simp only [hlt, if_true] at h
    split at h
    · rcases List.mem_append.mp (List.mem_of_mem_take h) with h' | h'
      · exact Or.inl h'
      · exact Or.inr (List.eq_of_mem_replicate h')
    · rcases List.mem_append.mp h with h' | h'
      · exact Or.inl h'
      · exact Or.inr (List.eq_of_mem_replicate h')
  · simp only [hlt, if_false] at h
    split at h
    · exact Or.inl (List.mem_of_mem_take h)
    · exact Or.inl h

/-- `find_all` only returns tag elements. -/
theorem findAllL_tags (nms : List String) :
    (es : List Element) → ∀ e, e ∈ findAllL nms es →
      ∃ n a c, e = Element.tag n a c
  | [] => by simp [findAllL]
  | .text s :: rest => by
    intro e he
    rw [findAllL] at he
    exact findAllL_tags nms rest e he
  | .tag n a c :: rest => by
    intro e he
    rw [findAllL] at he
    rcases List.mem_append.mp he with he' | he'
    · rcases List.mem_append.mp he' with he'' | he''
      · split at he''
        · exact ⟨n, a, c, (List.mem_singleton.mp he'').symm ▸ rfl⟩
        · simp at he''
      · exact findAllL_tags nms c e he''
    · exact findAllL_tags nms rest e he'

/-- `element.find_all` only returns tag elements. -/
theorem findAllE_tags (nms : List String) (el : Element) (e : Element)
    (he : e ∈ findAllE nms el) : ∃ n a c, e = Element.tag n a c := by
  cases el with
  | text s => simp [findAllE] at he
  | tag n a c =>
    rw [findAllE] at he
    exact findAllL_tags nms c e he

/-- `find_all(name, recursive=False)` only returns tags with that name. -/
theorem childTags_tag {nm : String} {ch : List Element} {e : Element}
    (h : e ∈ childTags nm ch) : ∃ a c, e = Element.tag nm a c := by
  have hp := List.of_mem_filter h
  cases e with
  | text s => simp at hp
  | tag n a c =>
    have : n = nm := by simpa using hp
    exact ⟨a, c, by rw [this]⟩

/-- Every run produced by the children loop of `process_rich_text_element`
has nonempty content. -/
theorem processChildren_content_ne (es : List Element) :
    ∀ r ∈ processChildren es, r.content ≠ "" := by
  induction es with
  | nil => simp [processChildren]
  | cons e rest ih =>
    intro r hr
    cases e with
    | text s =>
      rw [processChildren] at hr
      rcases List.mem_append.mp hr with h' | h'
      · split at h'
        · have hs : r = ⟨s, none, none⟩ := List.mem_singleton.mp h'
          intro hc
          rename_i hcond
          apply hcond
          have : s = "" := by rw [hs] at hc; exact hc
          rw [this]
          rfl
        · simp at h'
      · exact ih r h'
    | tag cname cattrs cch =>
      rw [processChildren] at hr
      rcases List.mem_append.mp hr with h' | h'
      · split at h'
        · split at h'
          · have hs := List.mem_singleton.mp h'
            rename_i hne
            rw [hs]
            exact hne
          · simp at h'
        · split at h'
          · simp at h'
          · have hs := List.mem_singleton.mp h'
            rename_i hne
            rw [hs]
            exact hne
      · exact ih r h'

/-- Every run produced by `process_rich_text_element` on a TAG element has
nonempty content (the converter never feeds it a bare string; only the
unchecked bare-string branch could produce an empty run). -/
theorem prte_tag_content_ne (n : String) (a : List (String × String))
    (c : List Element) : ∀ r ∈ prte (.tag n a c), r.content ≠ "" := by
  intro r hr
  rw [prte] at hr
  split at hr
  · split at hr
    · have hs := List.mem_singleton.mp hr
      rename_i hne
      rw [hs]
      exact hne
    · simp at hr
  · exact processChildren_content_ne c r hr

/-- Membership in an `if` is membership in one of its branches. -/
theorem mem_of_mem_ite {α : Type} {c : Prop} [Decidable c]
    {A B : List α} {x : α} (h : x ∈ (if c then A else B)) :
    x ∈ A ∨ x ∈ B := by
  by_cases hc : c
  · rw [if_pos hc] at h
    exact Or.inl h
  · rw [if_neg hc] at h
    exact Or.inr h

/-- A Table block can only arise from the `table` branch of the dispatch. -/
theorem table_mem_convertTable (el : Element) (w : Nat) (hc hr : Bool)
    (rows : List TableRow)
    (hb : Block.table w hc hr rows ∈ convertElement el) :
    Block.table w hc hr rows ∈ convertTable el := by
  cases el with
  | text s =>
    rw [convertElement] at hb
    exact absurd hb (List.not_mem_nil _)
  | tag name attrs children =>
    rw [convertElement] at hb
    rcases mem_of_mem_ite hb with hb | hb
    · simp at hb
    rcases mem_of_mem_ite hb with hb | hb
    · simp at hb
    rcases mem_of_mem_ite hb with hb | hb
    · simp at hb
    rcases mem_of_mem_ite hb with hb | hb
    · rcases mem_of_mem_ite hb with hb | hb
      · simp at hb
      · simp at hb
    rcases mem_of_mem_ite hb with hb | hb
    · obtain ⟨li, -, hli⟩ := List.mem_map.mp hb
      simp at hli
    rcases mem_of_mem_ite hb with hb | hb
    · obtain ⟨li, -, hli⟩ := List.mem_map.mp hb
      simp at hli
    rcases mem_of_mem_ite hb with hb | hb
    · simp at hb
    rcases mem_of_mem_ite hb with hb | hb
    · simp at hb
    rcases mem_of_mem_ite hb with hb | hb
    · simp at hb
    rcases mem_of_mem_ite hb with hb | hb
    · exact hb
    rcases mem_of_mem_ite hb with hb | hb
    · rcases mem_of_mem_ite hb with hb | hb
      · simp at hb
      · simp at hb
    rcases mem_of_mem_ite hb with hb | hb
    · rcases mem_of_mem_ite hb with hb | hb
      · simp at hb
      · rcases List.mem_filterMap.mp hb with ⟨ch, -, hch⟩
        split at hch
        · exact absurd (Option.some.inj hch) (by simp)
        · exact absurd hch (by simp)
    rcases mem_of_mem_ite hb with hb | hb
    · simp at hb
    · simp at hb

/-- Membership in an `if`, keeping the branch condition. -/
theorem mem_ite_cases {α : Type} {c : Prop} [Decidable c]
    {A B : List α} {x : α} (h : x ∈ (if c then A else B)) :
    (c ∧ x ∈ A) ∨ (¬c ∧ x ∈ B) := by
  by_cases hc : c
  · rw [if_pos hc] at h
    exact Or.inl ⟨hc, h⟩
  · rw [if_neg hc] at h
    exact Or.inr ⟨hc, h⟩

/-- Shape of every Table block emitted by the table branch: its width is
the cell count of the first `tr`, and every row carries exactly that many
cells. -/
theorem convertTable_shape (el : Element) (w : Nat) (hc hr : Bool)
    (rows : List TableRow)
    (hb : Block.table w hc hr rows ∈ convertTable el) :
    (∀ row ∈ rows, row.cells.length = w) ∧
    ∃ fr rest, findAllE ["tr"] el = fr :: rest ∧
      w = (findAllE ["th", "td"] fr).length := by
  rw [convertTable] at hb
  rcases hrows : findAllE ["tr"] el with _ | ⟨fr, rest⟩
  · rw [hrows] at hb
    exact absurd hb (List.not_mem_nil _)
  · rw [hrows] at hb
    rcases mem_ite_cases hb with ⟨-, hb'⟩ | ⟨-, hb'⟩
    · exact absurd hb' (List.not_mem_nil _)
    · have heq := List.mem_singleton.mp hb'
      obtain ⟨hw, -, -, hrowsEq⟩ := Block.table.injEq .. |>.mp heq
      subst hw
      subst hrowsEq
      refine ⟨?_, fr, rest, rfl, rfl⟩
      intro row hrow
      obtain ⟨src, -, hsrc⟩ := List.mem_map.mp hrow
      rw [← hsrc]
      exact normalizeCells_length _ _

/-- C3: table shape invariant — every Table block the built-in converter
produces has width equal to the cell count of the first source row and
every emitted row has exactly that many cells (short rows having been
right-padded with one empty-content run per missing cell, long rows
right-truncated); a table whose first row has no cells produces no Table
block at all. -/
theorem c3_table_shape_invariant (el : Element) :
    (∀ w hc hr rows, Block.table w hc hr rows ∈ convertElement el →
      (∀ row ∈ rows, row.cells.length = w) ∧
      ∃ fr rest, findAllE ["tr"] el = fr :: rest ∧
        w = (findAllE ["th", "td"] fr).length) ∧
    (∀ fr rest, findAllE ["tr"] el = fr :: rest →
      findAllE ["th", "td"] fr = [] →
      ∀ w hc hr rows, Block.table w hc hr rows ∉ convertElement el) := by
  constructor
  · intro w hc hr rows hb
    exact convertTable_shape el w hc hr rows
      (table_mem_convertTable el w hc hr rows hb)
  · intro fr rest hrows hz w hc hr rows hb
    have h2 := table_mem_convertTable el w hc hr rows hb
    have hnil : convertTable el = [] := by
      rw [convertTable, hrows]
      simp [hz]
    rw [hnil] at h2
    exact absurd h2 (List.not_mem_nil _)

/-- A concrete table: two header cells, then a one-cell row that the
normalizer must right-pad. -/
def exTable : Element :=
  .tag "table" []
    [.tag "tr" [] [.tag "th" [] [.text "A"], .tag "th" [] [.text "B"]],
     .tag "tr" [] [.tag "td" [] [.text "c"]]]

/-- The rows `convertElement` produces for `exTable`. -/
def exTableRows : List TableRow :=
  [⟨[[⟨"A", none, none⟩], [⟨"B", none, none⟩]]⟩,
   ⟨[[⟨"c", none, none⟩], [⟨"", none, none⟩]]⟩]

/-- Concrete evaluation of the converter on `exTable` (the `findAll`/
`getText` helpers recurse well-foundedly, so this is established through
their equations rather than by kernel evaluation). -/
theorem convertElement_exTable :
    convertElement exTable = [.table 2 true false exTableRows] := by
  simp [exTable, exTableRows, convertElement, convertTable, findAllE,
    findAllL, findDescE, findDescL, prte, processChildren, getAttr,
    normalizeCells, padCell, getTextE, getTextL, pyStripStr, pyStrip, pyWs,
    childTags, childLink, tagMark, List.find?, List.replicate]
  decide

/-- Witness for C3 at `exTable`. -/
theorem c3_table_shape_invariant_witness :
    (∀ row ∈ exTableRows, row.cells.length = 2) ∧
    ∃ fr rest, findAllE ["tr"] exTable = fr :: rest ∧
      2 = (findAllE ["th", "td"] fr).length :=
  (c3_table_shape_invariant exTable).1 2 true false exTableRows
    (by rw [convertElement_exTable]; exact List.mem_singleton.mpr rfl)

/-- Runs inside an emitted Table block: every run comes from
`process_rich_text_element` on a source cell tag (hence nonempty), or is
the empty padding run. -/
theorem convertTable_runs (el : Element) (b : Block) (r : RichText)
    (hb : b ∈ convertTable el) (hr : r ∈ runsOf b) :
    (∃ w hcol hrow rows, b = .table w hcol hrow rows) ∧
      (r.content ≠ "" ∨ r = ⟨"", none, none⟩) := by
  rw [convertTable] at hb
  rcases hrows : findAllE ["tr"] el with _ | ⟨fr, rest⟩
  · rw [hrows] at hb
    exact absurd hb (List.not_mem_nil _)
  · rw [hrows] at hb
    rcases mem_ite_cases hb with ⟨-, hb'⟩ | ⟨-, hb'⟩
    · exact absurd hb' (List.not_mem_nil _)
    · have heq := List.mem_singleton.mp hb'
      subst heq
      refine ⟨⟨_, _, _, _, rfl⟩, ?_⟩
      simp only [runsOf, List.mem_flatMap] at hr
      obtain ⟨row, hrow, hrcell⟩ := hr
      obtain ⟨src, -, hrowEq⟩ := List.mem_map.mp hrow
      subst hrowEq
      simp only [List.mem_flatMap, id] at hrcell
      obtain ⟨cell, hcell, hrin⟩ := hrcell
      rcases normalizeCells_mem hcell with hcell' | hcell'
      · obtain ⟨cellEl, hcellEl, hprte⟩ := List.mem_map.mp hcell'
        obtain ⟨n2, a2, c2, htag⟩ := findAllE_tags _ _ _ hcellEl
        subst htag
        rw [← hprte] at hrin
        exact Or.inl (prte_tag_content_ne n2 a2 c2 r hrin)
      · subst hcell'
        exact Or.inr (List.mem_singleton.mp hrin)

/-- C7 amended: every text run in the produced blocks has nonempty content,
except for the empty-content run `⟨"", no link, no annotations⟩`, which can
occur only as cell padding inside a Table block or as the single run of a
code block whose source text is empty. -/
theorem c7_textrun_nonempty (el : Element) (b : Block) (r : RichText)
    (hb : b ∈ convertElement el) (hr : r ∈ runsOf b) :
    r.content ≠ "" ∨
      (r = ⟨"", none, none⟩ ∧
        ((∃ w hcol hrow rows, b = .table w hcol hrow rows) ∨
          ∃ rts lang, b = .code rts lang)) := by
  cases el with
  | text s =>
    rw [convertElement] at hb
    exact absurd hb (List.not_mem_nil _)
  | tag name attrs children =>
    rw [convertElement] at hb
    rcases mem_of_mem_ite hb with hb | hb
    · have hbe := List.mem_singleton.mp hb
      subst hbe
      exact Or.inl (prte_tag_content_ne _ _ _ r hr)
    rcases mem_of_mem_ite hb with hb | hb
    · have hbe := List.mem_singleton.mp hb
      subst hbe
      exact Or.inl (prte_tag_content_ne _ _ _ r hr)
    rcases mem_of_mem_ite hb with hb | hb
    · have hbe := List.mem_singleton.mp hb
      subst hbe
      exact Or.inl (prte_tag_content_ne _ _ _ r hr)
    rcases mem_of_mem_ite hb with hb | hb
    · rcases mem_of_mem_ite hb with hb | hb
      · exact absurd hb (List.not_mem_nil _)
      · have hbe := List.mem_singleton.mp hb
        subst hbe
        exact Or.inl (prte_tag_content_ne _ _ _ r hr)
    rcases mem_of_mem_ite hb with hb | hb
    · obtain ⟨li, hli, hbe⟩ := List.mem_map.mp hb
      obtain ⟨a2, c2, hli2⟩ := childTags_tag hli
      subst hbe
      subst hli2
      simp only [runsOf] at hr
      exact Or.inl (prte_tag_content_ne _ _ _ r hr)
    rcases mem_of_mem_ite hb with hb | hb
    · obtain ⟨li, hli, hbe⟩ := List.mem_map.mp hb
      obtain ⟨a2, c2, hli2⟩ := childTags_tag hli
      subst hbe
      subst hli2
      simp only [runsOf] at hr
      exact Or.inl (prte_tag_content_ne _ _ _ r hr)
    rcases mem_of_mem_ite hb with hb | hb
    · have hbe := List.mem_singleton.mp hb
      subst hbe
      exact Or.inl (prte_tag_content_ne _ _ _ r hr)
    rcases mem_of_mem_ite hb with hb | hb
    · have hbe := List.mem_singleton.mp hb
      subst hbe
      have hre := List.mem_singleton.mp hr
      by_cases ht : getTextE (.tag name attrs children) = ""
      · refine Or.inr ⟨?_, Or.inr ⟨_, _, rfl⟩⟩
        rw [hre, ht]
      · exact Or.inl (by rw [hre]; exact ht)
    rcases mem_of_mem_ite hb with hb | hb
    · have hbe := List.mem_singleton.mp hb
      subst hbe
      exact absurd hr (List.not_mem_nil _)
    rcases mem_of_mem_ite hb with hb | hb
    · obtain ⟨-, hd⟩ := convertTable_runs _ _ _ hb hr
      rcases hd with hd | hd
      · exact Or.inl hd
      · exact Or.inr ⟨hd, Or.inl (convertTable_runs _ _ _ hb hr).1⟩
    rcases mem_of_mem_ite hb with hb | hb
    · rcases mem_of_mem_ite hb with hb | hb
      · have hbe := List.mem_singleton.mp hb
        subst hbe
        exact absurd hr (List.not_mem_nil _)
      · exact absurd hb (List.not_mem_nil _)
    rcases mem_of_mem_ite hb with hb | hb
    · rcases mem_of_mem_ite hb with hb | hb
      · have hbe := List.mem_singleton.mp hb
        subst hbe
        exact Or.inl (prte_tag_content_ne _ _ _ r hr)
      · obtain ⟨ch, -, hf⟩ := List.mem_filterMap.mp hb
        split at hf
        · have hbe := Option.some.inj hf
          subst hbe
          simp only [runsOf] at hr
          exact Or.inl (prte_tag_content_ne _ _ _ r hr)
        · exact absurd hf (by simp)
    rcases mem_ite_cases hb with ⟨hcond, hb⟩ | ⟨-, hb⟩
    · have hbe := List.mem_singleton.mp hb
      subst hbe
      have hre := List.mem_singleton.mp hr
      exact Or.inl (by rw [hre]; exact hcond)
    · exact absurd hb (List.not_mem_nil _)

/-- C7 counterexample: the claim — every text run in the output has
nonempty content, including inside table cells — fails at `exTable`: the
padded cell of its short row contains the empty-content run. -/
theorem c7_empty_run_counterexample :
    ¬(∀ r ∈ allRuns (convertElements [exTable]), r.content ≠ "") := by
  have hconv : convertElements [exTable] = [.table 2 true false exTableRows] := by
    simp [convertElements, convertElement_exTable]
  rw [hconv]
  decide

/-- Witness for C7 (amended) at `exTable` and its padding run. -/
theorem c7_textrun_nonempty_witness :
    (RichText.mk "" none none).content ≠ "" ∨
      (RichText.mk "" none none = ⟨"", none, none⟩ ∧
        ((∃ w hcol hrow rows,
          (Block.table 2 true false exTableRows : Block) =
            .table w hcol hrow rows) ∨
          ∃ rts lang,
            (Block.table 2 true false exTableRows : Block) =
              .code rts lang)) :=
  c7_textrun_nonempty exTable (.table 2 true false exTableRows)
    ⟨"", none, none⟩
    (by rw [convertElement_exTable]; exact List.mem_singleton.mpr rfl)
    (by decide)

end NotionMd
